import Mathlib

/-!
Verification of the `msse_plugin_md` molecular-dynamics engine.

The development shallowly embeds the two source files of the repository:
`src/plugin/src/plugin.cpp` (the Lennard-Jones pairwise force kernel and the
plugin entry points) and `src/executable/src/main.cpp` (the `MDSimulation`
class: construction and the integration loop).  Machine `double` arithmetic is
modelled by exact field arithmetic (`ℚ` for executable definitions; the scalar
Lennard-Jones functions are stated over an arbitrary linear ordered field so
that continuity at the cutoff can be stated over `ℝ`).  Note that in this
model `1 / 0 = 0`, which only matters for the degenerate `r2 = 0`
configurations that the design explicitly does not guard against.
-/

/-- A 3-component vector, modelling `std::array<double, 3>`. -/
abbrev Vec3 : Type := ℚ × ℚ × ℚ

/-- Squared magnitude `dx*dx + dy*dy + dz*dz` as computed in
`evaluate_lj_forces` (plugin.cpp line 99). -/
def norm2 (v : Vec3) : ℚ :=
  v.1 * v.1 + v.2.1 * v.2.1 + v.2.2 * v.2.2

section LJScalar

variable (K : Type) [LinearOrderedField K]

/-- Global `lj_cutoff = 2.5` (plugin.cpp line 10). -/
def lj_cutoff : K := 5 / 2

/-- Global `lj_cutoff2 = lj_cutoff * lj_cutoff` (plugin.cpp line 11). -/
def lj_cutoff2 : K := lj_cutoff K * lj_cutoff K

/-- The function `lj_potential` (plugin.cpp lines 19-23). -/
def lj_potential (r2 : K) : K :=
  let inv_r2 := 1 / r2
  let inv_r6 := inv_r2 * inv_r2 * inv_r2
  4 * (inv_r6 * inv_r6 - inv_r6)

/-- The value stored into the global `lj_potential_at_cutoff` by the plugin
entry point `initialize` (plugin.cpp line 124): `lj_potential(lj_cutoff2)`. -/
def ljShiftInit : K := lj_potential K (lj_cutoff2 K)

/-- The function `lj_potential_with_cutoff` (plugin.cpp lines 30-37).  The
global `lj_potential_at_cutoff` is threaded explicitly as `shift`. -/
def lj_potential_with_cutoff (shift r2 : K) : K :=
  if r2 < lj_cutoff2 K then lj_potential K r2 - shift else 0

/-- The function `lj_force` (plugin.cpp lines 44-48). -/
def lj_force (r2 : K) : K :=
  let inv_r2 := 1 / r2
  let inv_r6 := inv_r2 * inv_r2 * inv_r2
  24 * inv_r2 * (2 * inv_r6 * inv_r6 - inv_r6)

/-- The function `lj_force_with_cutoff` (plugin.cpp lines 55-62). -/
def lj_force_with_cutoff (r2 : K) : K :=
  if r2 < lj_cutoff2 K then lj_force K r2 else 0

end LJScalar

/-- Minimum-image correction of one displacement component: the two sequential
`if` statements of plugin.cpp lines 88-89 (and 92-93, 96-97). -/
def minImage (L d : ℚ) : ℚ :=
  let d1 := if (1 / 2 : ℚ) * L < d then d - L else d
  if d1 < -((1 / 2 : ℚ) * L) then d1 + L else d1

/-- Minimum-image displacement `positions[i] - positions[j]`, componentwise
corrected (plugin.cpp lines 87-97). -/
def minImageDisp (L : ℚ) (p q : Vec3) : Vec3 :=
  (minImage L (p.1 - q.1), minImage L (p.2.1 - q.2.1), minImage L (p.2.2 - q.2.2))

/-- The body of the inner loop of `evaluate_lj_forces` (plugin.cpp lines
86-108) for the ordered pair `(i, j)`: skip the self pair, otherwise add
`f(r2) · displacement` into `forces[i]` and `0.5 * lj_potential_with_cutoff r2`
into the potential-energy accumulator. -/
def ljPairStep (shift L : ℚ) (pos : List Vec3) (i : ℕ) (st : List Vec3 × ℚ) (j : ℕ) :
    List Vec3 × ℚ :=
  if i = j then st
  else
    let d := minImageDisp L (pos.getD i 0) (pos.getD j 0)
    let r2 := norm2 d
    let f := lj_force_with_cutoff ℚ r2
    (st.1.set i (st.1.getD i 0 + f • d),
     st.2 + 1 / 2 * lj_potential_with_cutoff ℚ shift r2)

/-- The function `evaluate_lj_forces` (plugin.cpp lines 77-112): the double
loop over ordered pairs, accumulating into the forces array and the
potential-energy scalar it is handed. -/
def evaluate_lj_forces (shift : ℚ) (n : ℕ) (L : ℚ) (pos : List Vec3)
    (st : List Vec3 × ℚ) : List Vec3 × ℚ :=
  (List.range n).foldl (fun acc i => (List.range n).foldl (ljPairStep shift L pos i) acc) st

/-- Reduction of a value to 32 bits, modelling `uint32` arithmetic. -/
def mask32 (x : ℕ) : ℕ := x % 2 ^ 32

/-- Word `k` of the seeded state of `std::mt19937 gen(seed)` (main.cpp line
52).  Per the C++ standard for `mersenne_twister_engine` with the `mt19937`
parameters: `x 0 = seed mod 2^32` and
`x (k+1) = (1812433253 * (x k XOR (x k >> 30)) + (k+1)) mod 2^32`. -/
def mtWord (seed : ℕ) : ℕ → ℕ
  | 0 => mask32 seed
  | k + 1 => mask32 (1812433253 * (mtWord seed k ^^^ (mtWord seed k >>> 30)) + (k + 1))

/-- The `mt19937` tempering map applied to each generated word, per the C++
standard (parameters `u=11, d=0xffffffff, s=7, b=0x9d2c5680, t=15,
c=0xefc60000, l=18`). -/
def mtTemper (y : ℕ) : ℕ :=
  let y1 := y ^^^ ((y >>> 11) &&& 0xffffffff)
  let y2 := y1 ^^^ ((y1 <<< 7) &&& 0x9d2c5680)
  let y3 := y2 ^^^ ((y2 <<< 15) &&& 0xefc60000)
  y3 ^^^ (y3 >>> 18)

/-- Output `k` of `std::mt19937` seeded with `seed`, for `k < 227` (the only
range the engine uses: six draws per particle).  Per the C++ standard:
combine the high bit of word `k` with the low 31 bits of word `k+1`, twist
against word `k+397`, temper. -/
def mtRaw (seed k : ℕ) : ℕ :=
  let y := (mtWord seed k &&& 0x80000000) ||| (mtWord seed (k + 1) &&& 0x7fffffff)
  mtTemper (mtWord seed (k + 397) ^^^ ((y >>> 1) ^^^ (if y % 2 = 1 then 0x9908b0df else 0)))

/-- Modelled from the spec: `std::uniform_real_distribution<double>(-0.5, 0.5)`
(main.cpp line 53) has an implementation-defined mapping from raw engine
output to a real value; the spec only fixes that each draw is a pseudo-random
value in `[-0.5, 0.5)` determined by the generator.  Modelled as the canonical
two-word fraction `(lo + hi·2^32) / 2^64` rescaled to `[-1/2, 1/2)`. -/
def uniformVal (lo hi : ℕ) : ℚ :=
  ((lo : ℚ) + (hi : ℚ) * 2 ^ 32) / 2 ^ 64 - 1 / 2

/-- The velocity assigned to particle `i` (main.cpp lines 52-54): a generator
seeded with the particle index, three distribution draws (each consuming two
raw 32-bit outputs), evaluated left to right. -/
def randomVel (i : ℕ) : Vec3 :=
  (uniformVal (mtRaw i 0) (mtRaw i 1),
   uniformVal (mtRaw i 2) (mtRaw i 3),
   uniformVal (mtRaw i 4) (mtRaw i 5))

/-- Particles per lattice side, `ceil(pow(nparticles, 1.0/3.0))` (main.cpp
line 33), modelled in exact arithmetic: the least `k` with `n ≤ k^3`. -/
def perSide (n : ℕ) : ℕ :=
  ((List.range (n + 2)).find? (fun k => n ≤ k ^ 3)).getD 0

/-- The lattice slot `(ix, iy, iz)` of particle `i` (main.cpp lines 36-38):
row-major decomposition, `x` fastest, then `y`, then `z`. -/
def latticeSlot (p i : ℕ) : ℕ × ℕ × ℕ :=
  (i % p, i / p % p, i / (p * p))

/-- The grid position pushed for particle `i` during construction (main.cpp
lines 39-43): `spacing * index + 0.5 * spacing` on each axis, with
`spacing = box_size / (particles_per_side + 1)`. -/
def gridPos (L : ℚ) (n i : ℕ) : Vec3 :=
  let p := perSide n
  let spacing := L / (p + 1)
  (spacing * (i % p : ℕ) + 1 / 2 * spacing,
   spacing * (i / p % p : ℕ) + 1 / 2 * spacing,
   spacing * (i / (p * p) : ℕ) + 1 / 2 * spacing)

/-- The simulation state: the fields of class `MDSimulation` (main.cpp lines
7-19). -/
structure MDState where
  box_size : ℚ
  potential_energy : ℚ
  kinetic_energy : ℚ
  nparticles : ℕ
  positions : List Vec3
  velocities : List Vec3
  forces : List Vec3

/-- The constructor `MDSimulation::MDSimulation` (main.cpp lines 28-63):
grid positions, per-index seeded random velocities, zero forces.  The two
energy scalars are uninitialised `double` members in the source, first
written at the top of each step; they are modelled as starting at `0`.
No validation of any kind is performed on the inputs. -/
def mdInit (box_size_in : ℚ) (nparticles_in : ℕ) : MDState where
  box_size := box_size_in
  potential_energy := 0
  kinetic_energy := 0
  nparticles := nparticles_in
  positions := (List.range nparticles_in).map (gridPos box_size_in nparticles_in)
  velocities := (List.range nparticles_in).map randomVel
  forces := List.replicate nparticles_in 0

/-- Periodic wrap of one position component (main.cpp lines 87-88): two
sequential `if` statements, first `+L` when negative, then `-L` when `≥ L`. -/
def wrapCoord (L x : ℚ) : ℚ :=
  let x1 := if x < 0 then x + L else x
  if L ≤ x1 then x1 - L else x1

/-- Position update followed by the periodic wrap for one particle (main.cpp
lines 81-89): `position += velocity * dt` on each axis, then wrap each axis. -/
def stepPos (L dt : ℚ) (p v : Vec3) : Vec3 :=
  (wrapCoord L (p.1 + v.1 * dt),
   wrapCoord L (p.2.1 + v.2.1 * dt),
   wrapCoord L (p.2.2 + v.2.2 * dt))

/-- Kinetic-energy accumulation (main.cpp lines 104-108): for each particle,
add `0.5 * v^2` for each of the three velocity components. -/
def keSum (vels : List Vec3) (n : ℕ) : ℚ :=
  (List.range n).foldl
    (fun acc i =>
      let v := vels.getD i 0
      acc + 1 / 2 * (v.1 * v.1) + 1 / 2 * (v.2.1 * v.2.1) + 1 / 2 * (v.2.2 * v.2.2))
    0

/-- One iteration of the main simulation loop exactly as the source stands
(main.cpp lines 75-122): positions are updated and wrapped, energies and
forces are zeroed, the plugin call site at line 101 is only a comment (no
force evaluation happens), kinetic energy is accumulated from the velocities,
and velocities are updated from the (still zero) forces. -/
def stepCode (dt : ℚ) (s : MDState) : MDState :=
  let n := s.nparticles
  let L := s.box_size
  let positions1 := (List.range n).map
    (fun i => stepPos L dt (s.positions.getD i 0) (s.velocities.getD i 0))
  let forces1 : List Vec3 := List.replicate n 0
  let ke := keSum s.velocities n
  let velocities1 := (List.range n).map
    (fun i => s.velocities.getD i 0 + dt • forces1.getD i 0)
  { s with
      positions := positions1
      potential_energy := 0
      kinetic_energy := ke
      forces := forces1
      velocities := velocities1 }

/-- Modelled from the spec: the plugin invocation at main.cpp line 101 is an
unimplemented placeholder comment (as is the body of the plugin entry point
`evaluate_forces`, plugin.cpp lines 134-145).  Per spec §4.4(d) the step
invokes `evaluate_forces` through the plugin interface after zeroing, and
that call dispatches to `evaluate_lj_forces` on the state fields with the
shift constant set by the plugin's `initialize`.  Everything else is the
source's step verbatim. -/
def stepModel (dt : ℚ) (s : MDState) : MDState :=
  let n := s.nparticles
  let L := s.box_size
  let positions1 := (List.range n).map
    (fun i => stepPos L dt (s.positions.getD i 0) (s.velocities.getD i 0))
  let fe := evaluate_lj_forces (ljShiftInit ℚ) n L positions1 (List.replicate n 0, 0)
  let ke := keSum s.velocities n
  let velocities1 := (List.range n).map
    (fun i => s.velocities.getD i 0 + dt • fe.1.getD i 0)
  { s with
      positions := positions1
      potential_energy := fe.2
      kinetic_energy := ke
      forces := fe.1
      velocities := velocities1 }

/-- The loop of `MDSimulation::run` as the source stands (main.cpp lines
72-125): `nsteps` iterations of `stepCode`. -/
def runCode (nsteps : ℕ) (dt : ℚ) (s : MDState) : MDState :=
  Nat.rec s (fun _ acc => stepCode dt acc) nsteps

/-- Velocity initialisation replayed in an arbitrary execution order: process
the particle indices in the order given by `order`, writing each particle's
velocity into its slot of an `n`-entry array. -/
def velFold (order : List ℕ) (n : ℕ) : List Vec3 :=
  order.foldl (fun acc i => acc.set i (randomVel i)) (List.replicate n 0)

/-- The corrected displacement used by `evaluate_lj_forces` for the ordered
pair `(i, j)`. -/
def pairDisp (L : ℚ) (pos : List Vec3) (i j : ℕ) : Vec3 :=
  minImageDisp L (pos.getD i 0) (pos.getD j 0)

/-- The force contribution the pair loop adds into `forces[i]` for the
ordered pair `(i, j)`; zero on the skipped diagonal. -/
def pairForce (L : ℚ) (pos : List Vec3) (i j : ℕ) : Vec3 :=
  if i = j then 0
  else lj_force_with_cutoff ℚ (norm2 (pairDisp L pos i j)) • pairDisp L pos i j

/-- The potential-energy contribution the pair loop accumulates for the
ordered pair `(i, j)`; zero on the skipped diagonal. -/
def pairPot (shift L : ℚ) (pos : List Vec3) (i j : ℕ) : ℚ :=
  if i = j then 0
  else 1 / 2 * lj_potential_with_cutoff ℚ shift (norm2 (pairDisp L pos i j))

/-- All three components lie in the half-open interval `[0, L)`. -/
def inBox (L : ℚ) (v : Vec3) : Prop :=
  (0 ≤ v.1 ∧ v.1 < L) ∧ (0 ≤ v.2.1 ∧ v.2.1 < L) ∧ (0 ≤ v.2.2 ∧ v.2.2 < L)

/-- All three components lie strictly inside `(0, L)`. -/
def inBoxStrict (L : ℚ) (v : Vec3) : Prop :=
  (0 < v.1 ∧ v.1 < L) ∧ (0 < v.2.1 ∧ v.2.1 < L) ∧ (0 < v.2.2 ∧ v.2.2 < L)

/-- All three components lie in the half-open interval `[-1/2, 1/2)`. -/
def velBox (v : Vec3) : Prop :=
  (-(1 / 2) ≤ v.1 ∧ v.1 < 1 / 2) ∧ (-(1 / 2) ≤ v.2.1 ∧ v.2.1 < 1 / 2) ∧
    (-(1 / 2) ≤ v.2.2 ∧ v.2.2 < 1 / 2)

/-- The outer loop of `evaluate_lj_forces`, generalised to an arbitrary list
of row indices for the induction. -/
def ljOuterFold (shift L : ℚ) (pos : List Vec3) (n : ℕ) (l : List ℕ)
    (st : List Vec3 × ℚ) : List Vec3 × ℚ :=
  l.foldl (fun acc i => (List.range n).foldl (ljPairStep shift L pos i) acc) st

/-! ### List access helpers -/

theorem getD_set_self {α : Type} (l : List α) (i : ℕ) (v d : α) (h : i < l.length) :
    (l.set i v).getD i d = v := by
  rw [List.getD_eq_getElem _ _ (by simpa using h)]
  simp

theorem getD_set_ne {α : Type} (l : List α) {i j : ℕ} (v d : α) (h : i ≠ j) :
    (l.set i v).getD j d = l.getD j d := by
  by_cases hj : j < l.length
  · rw [List.getD_eq_getElem _ _ (by simpa using hj), List.getD_eq_getElem _ _ hj]
    exact List.getElem_set_ne h _
  · rw [List.getD_eq_default _ _ (by simpa using hj), List.getD_eq_default _ _ (by omega)]

theorem set_getD_self {α : Type} (l : List α) (i : ℕ) (d : α) (h : i < l.length) :
    l.set i (l.getD i d) = l := by
  rw [List.getD_eq_getElem _ _ h]
  apply List.ext_getElem (by simp)
  intro n h1 h2
  by_cases hn : i = n
  · subst hn; simp
  · rw [List.getElem_set_ne hn]

theorem getD_replicate {α : Type} (n i : ℕ) (x d : α) (h : i < n) :
    (List.replicate n x).getD i d = x := by
  rw [List.getD_eq_getElem _ _ (by simpa using h)]
  simp

theorem getD_map_range {α : Type} [Inhabited α] (n i : ℕ) (d : α) (f : ℕ → α) (h : i < n) :
    ((List.range n).map f).getD i d = f i := by
  rw [List.getD_eq_getElem _ _ (by simpa using h)]
  rw [List.getElem_map, List.getElem_range]

theorem sum_map_range {M : Type} [AddCommMonoid M] (n : ℕ) (f : ℕ → M) :
    ((List.range n).map f).sum = ∑ i ∈ Finset.range n, f i := by
  induction n with
  | zero => simp
  | succ m ih =>
      rw [List.range_succ, Finset.sum_range_succ, List.map_append, List.sum_append, ih]
      simp

/-! ### Minimum-image algebra -/

theorem minImage_cases (L d : ℚ) :
    minImage L d = if 1 / 2 * L < d then d - L else if d < -(1 / 2 * L) then d + L else d := by
  unfold minImage
  dsimp only
  split_ifs <;> linarith

theorem minImage_neg (L d : ℚ) (hL : 0 ≤ L) : minImage L (-d) = -minImage L d := by
  rw [minImage_cases L d, minImage_cases L (-d)]
  split_ifs <;> linarith

theorem norm2_neg (v : Vec3) : norm2 (-v) = norm2 v := by
  obtain ⟨a, b, c⟩ := v
  simp only [norm2, Prod.neg_mk]
  ring

theorem minImageDisp_antisymm (L : ℚ) (p q : Vec3) (hL : 0 ≤ L) :
    minImageDisp L q p = -minImageDisp L p q := by
  have comp : ∀ x y : ℚ, minImage L (x - y) = -minImage L (y - x) := by
    intro x y
    rw [show x - y = -(y - x) by ring, minImage_neg L _ hL]
  obtain ⟨a, b, c⟩ := p
  obtain ⟨a2, b2, c2⟩ := q
  simp only [minImageDisp, Prod.neg_mk, Prod.mk.injEq]
  exact ⟨comp _ _, comp _ _, comp _ _⟩

theorem pairDisp_antisymm (L : ℚ) (pos : List Vec3) (i j : ℕ) (hL : 0 ≤ L) :
    pairDisp L pos j i = -pairDisp L pos i j :=
  minImageDisp_antisymm L _ _ hL

theorem pairForce_antisymm (L : ℚ) (pos : List Vec3) (i j : ℕ) (hL : 0 ≤ L) :
    pairForce L pos j i = -pairForce L pos i j := by
  unfold pairForce
  by_cases h : i = j
  · simp [h, eq_comm]
  · rw [if_neg (Ne.symm h), if_neg h, pairDisp_antisymm L pos i j hL, norm2_neg, smul_neg]

theorem pairPot_symm (shift L : ℚ) (pos : List Vec3) (i j : ℕ) (hL : 0 ≤ L) :
    pairPot shift L pos j i = pairPot shift L pos i j := by
  unfold pairPot
  by_cases h : i = j
  · simp [h, eq_comm]
  · rw [if_neg (Ne.symm h), if_neg h, pairDisp_antisymm L pos i j hL, norm2_neg]

/-! ### Closed forms for the pair loops -/

theorem ljPairStep_skip (shift L : ℚ) (pos : List Vec3) (i : ℕ) (st : List Vec3 × ℚ) :
    ljPairStep shift L pos i st i = st := by
  simp [ljPairStep]

theorem ljPairStep_hit (shift L : ℚ) (pos : List Vec3) {i j : ℕ} (fs : List Vec3) (e : ℚ)
    (hij : i ≠ j) :
    ljPairStep shift L pos i (fs, e) j
      = (fs.set i (fs.getD i 0 + pairForce L pos i j), e + pairPot shift L pos i j) := by
  simp only [ljPairStep, if_neg hij, pairForce, pairPot, pairDisp]

theorem ljInner_eq (shift L : ℚ) (pos : List Vec3) (i : ℕ) (l : List ℕ) :
    ∀ (fs : List Vec3) (e : ℚ), i < fs.length →
      l.foldl (ljPairStep shift L pos i) (fs, e)
        = (fs.set i (fs.getD i 0 + (l.map (pairForce L pos i)).sum),
           e + (l.map (pairPot shift L pos i)).sum) := by
  induction l with
  | nil =>
      intro fs e hi
      simp only [List.foldl_nil, List.map_nil, List.sum_nil, add_zero]
      rw [set_getD_self fs i 0 hi]
  | cons j l ih =>
      intro fs e hi
      rw [List.foldl_cons]
      by_cases hij : i = j
      · subst hij
        rw [ljPairStep_skip, ih fs e hi]
        simp [pairForce, pairPot]
      · rw [ljPairStep_hit shift L pos fs e hij, ih _ _ (by simpa using hi)]
        rw [List.set_set, getD_set_self fs i _ 0 hi]
        simp only [List.map_cons, List.sum_cons]
        rw [add_assoc, add_assoc]


theorem evaluate_lj_forces_eq_outer (shift : ℚ) (n : ℕ) (L : ℚ) (pos : List Vec3)
    (st : List Vec3 × ℚ) :
    evaluate_lj_forces shift n L pos st = ljOuterFold shift L pos n (List.range n) st := rfl

theorem ljOuterFold_spec (shift L : ℚ) (pos : List Vec3) (n : ℕ) :
    ∀ (l : List ℕ) (fs : List Vec3) (e : ℚ), (∀ i ∈ l, i < fs.length) → l.Nodup →
      (ljOuterFold shift L pos n l (fs, e)).2
          = e + (l.map (fun i => ((List.range n).map (pairPot shift L pos i)).sum)).sum
        ∧ ∀ k, (ljOuterFold shift L pos n l (fs, e)).1.getD k 0
          = fs.getD k 0
            + if k ∈ l then ((List.range n).map (pairForce L pos k)).sum else 0 := by
  intro l
  induction l with
  | nil =>
      intro fs e _ _
      simp [ljOuterFold]
  | cons i l ih =>
      intro fs e hmem hnd
      have hi : i < fs.length := hmem i (by simp)
      have hnd' : l.Nodup := (List.nodup_cons.mp hnd).2
      have hil : i ∉ l := (List.nodup_cons.mp hnd).1
      have hstep : ljOuterFold shift L pos n (i :: l) (fs, e)
          = ljOuterFold shift L pos n l
              (fs.set i (fs.getD i 0 + ((List.range n).map (pairForce L pos i)).sum),
               e + ((List.range n).map (pairPot shift L pos i)).sum) := by
        unfold ljOuterFold
        rw [List.foldl_cons, ljInner_eq shift L pos i (List.range n) fs e hi]
      have hmem' : ∀ x ∈ l, x < (fs.set i (fs.getD i 0
          + ((List.range n).map (pairForce L pos i)).sum)).length := by
        intro x hx
        rw [List.length_set]
        exact hmem x (by simp [hx])
      obtain ⟨ih2, ih1⟩ := ih _ _ hmem' hnd'
      constructor
      · rw [hstep, ih2]
        simp only [List.map_cons, List.sum_cons]
        rw [add_assoc]
      · intro k
        rw [hstep, ih1 k]
        by_cases hk : k = i
        · subst hk
          rw [if_neg hil, getD_set_self fs k _ 0 hi, if_pos (by simp)]
          rw [add_zero]
        · rw [getD_set_ne fs _ 0 (fun h => hk h.symm)]
          by_cases hkl : k ∈ l
          · rw [if_pos hkl, if_pos (by simp [hkl])]
          · rw [if_neg hkl, if_neg (by simp [hk, hkl])]

theorem evaluate_lj_forces_pe (shift L : ℚ) (pos : List Vec3) (n : ℕ) :
    (evaluate_lj_forces shift n L pos (List.replicate n 0, 0)).2
      = ∑ i ∈ Finset.range n, ∑ j ∈ Finset.range n, pairPot shift L pos i j := by
  rw [evaluate_lj_forces_eq_outer]
  have h := (ljOuterFold_spec shift L pos n (List.range n) (List.replicate n 0) 0
    (by intro i hi; simp only [List.length_replicate]; exact List.mem_range.mp hi)
    (List.nodup_range n)).1
  rw [h, sum_map_range, zero_add]
  apply Finset.sum_congr rfl
  intro i _
  rw [sum_map_range]

theorem evaluate_lj_forces_force (shift L : ℚ) (pos : List Vec3) (n k : ℕ) (hk : k < n) :
    (evaluate_lj_forces shift n L pos (List.replicate n 0, 0)).1.getD k 0
      = ∑ j ∈ Finset.range n, pairForce L pos k j := by
  rw [evaluate_lj_forces_eq_outer]
  have h := (ljOuterFold_spec shift L pos n (List.range n) (List.replicate n 0) 0
    (by intro i hi; simp only [List.length_replicate]; exact List.mem_range.mp hi)
    (List.nodup_range n)).2 k
  rw [h, if_pos (List.mem_range.mpr hk), getD_replicate n k 0 0 hk, zero_add, sum_map_range]

theorem ljInnerFold_length (shift L : ℚ) (pos : List Vec3) (i : ℕ) :
    ∀ (l : List ℕ) (st : List Vec3 × ℚ),
      (l.foldl (ljPairStep shift L pos i) st).1.length = st.1.length := by
  intro l
  induction l with
  | nil => intro st; rfl
  | cons j l ih =>
      intro st
      rw [List.foldl_cons, ih]
      unfold ljPairStep
      split_ifs
      · rfl
      · simp [List.length_set]

theorem ljOuterFold_length (shift L : ℚ) (pos : List Vec3) (n : ℕ) :
    ∀ (l : List ℕ) (st : List Vec3 × ℚ),
      (ljOuterFold shift L pos n l st).1.length = st.1.length := by
  intro l
  induction l with
  | nil => intro st; rfl
  | cons i l ih =>
      intro st
      unfold ljOuterFold at ih ⊢
      rw [List.foldl_cons, ih, ljInnerFold_length]

theorem evaluate_lj_forces_length (shift L : ℚ) (pos : List Vec3) (n : ℕ)
    (st : List Vec3 × ℚ) :
    (evaluate_lj_forces shift n L pos st).1.length = st.1.length := by
  rw [evaluate_lj_forces_eq_outer]
  exact ljOuterFold_length shift L pos n (List.range n) st

/-! ### Kinetic-energy fold -/

theorem foldl_add3 (f1 f2 f3 : ℕ → ℚ) :
    ∀ (l : List ℕ) (c : ℚ),
      l.foldl (fun acc i => acc + f1 i + f2 i + f3 i) c
        = c + (l.map (fun i => f1 i + f2 i + f3 i)).sum := by
  intro l
  induction l with
  | nil => intro c; simp
  | cons j l ih =>
      intro c
      rw [List.foldl_cons, ih]
      simp only [List.map_cons, List.sum_cons]
      ring

theorem keSum_eq (vels : List Vec3) (n : ℕ) :
    keSum vels n = ∑ i ∈ Finset.range n,
      (1 / 2 * ((vels.getD i 0).1 * (vels.getD i 0).1)
        + 1 / 2 * ((vels.getD i 0).2.1 * (vels.getD i 0).2.1)
        + 1 / 2 * ((vels.getD i 0).2.2 * (vels.getD i 0).2.2)) := by
  show (List.range n).foldl
      (fun acc i => acc + 1 / 2 * ((vels.getD i 0).1 * (vels.getD i 0).1)
        + 1 / 2 * ((vels.getD i 0).2.1 * (vels.getD i 0).2.1)
        + 1 / 2 * ((vels.getD i 0).2.2 * (vels.getD i 0).2.2)) 0 = _
  rw [foldl_add3]
  rw [zero_add, sum_map_range]

/-! ### Boundary wrap -/

theorem wrapCoord_mem (L x : ℚ) (hL : 0 < L) (h1 : -L ≤ x) (h2 : x < 2 * L) :
    0 ≤ wrapCoord L x ∧ wrapCoord L x < L := by
  unfold wrapCoord
  dsimp only
  split_ifs <;> constructor <;> linarith

theorem wrapCoord_at_L (L : ℚ) (hL : 0 < L) : wrapCoord L L = 0 := by
  unfold wrapCoord
  dsimp only
  split_ifs <;> linarith

theorem wrapCoord_neg_eps (L eps : ℚ) (h1 : 0 < eps) (h2 : eps ≤ L) :
    wrapCoord L (-eps) = L - eps := by
  unfold wrapCoord
  dsimp only
  split_ifs <;> linarith

/-! ### Bounds on the generator outputs -/

theorem mask32_lt (x : ℕ) : mask32 x < 2 ^ 32 :=
  Nat.mod_lt x (by norm_num)

theorem mtWord_lt (seed k : ℕ) : mtWord seed k < 2 ^ 32 := by
  cases k with
  | zero => exact mask32_lt seed
  | succ m => exact mask32_lt _

theorem shiftRight_le_self (y k : ℕ) : y >>> k ≤ y := by
  rw [Nat.shiftRight_eq_div_pow]
  exact Nat.div_le_self y (2 ^ k)

theorem xor_and_lt {a x : ℕ} {c : ℕ} (ha : a < 2 ^ 32) (hc : c < 2 ^ 32) :
    a ^^^ (x &&& c) < 2 ^ 32 :=
  Nat.xor_lt_two_pow ha (lt_of_le_of_lt Nat.and_le_right hc)

theorem mtTemper_lt (y : ℕ) (hy : y < 2 ^ 32) : mtTemper y < 2 ^ 32 := by
  unfold mtTemper
  dsimp only
  exact Nat.xor_lt_two_pow
    (xor_and_lt (xor_and_lt (xor_and_lt hy (by norm_num)) (by norm_num)) (by norm_num))
    (lt_of_le_of_lt (shiftRight_le_self _ 18)
      (xor_and_lt (xor_and_lt (xor_and_lt hy (by norm_num)) (by norm_num)) (by norm_num)))

theorem mtRaw_lt (seed k : ℕ) : mtRaw seed k < 2 ^ 32 := by
  unfold mtRaw
  dsimp only
  apply mtTemper_lt
  apply Nat.xor_lt_two_pow (mtWord_lt seed _)
  apply Nat.xor_lt_two_pow
  · have hy : (mtWord seed k &&& 0x80000000) ||| (mtWord seed (k + 1) &&& 0x7fffffff)
        < 2 ^ 32 :=
      Nat.or_lt_two_pow (lt_of_le_of_lt Nat.and_le_right (by norm_num))
        (lt_of_le_of_lt Nat.and_le_right (by norm_num))
    exact lt_of_le_of_lt (shiftRight_le_self _ 1) hy
  · split_ifs <;> norm_num

theorem uniformVal_mem (lo hi : ℕ) (hlo : lo < 2 ^ 32) (hhi : hi < 2 ^ 32) :
    -(1 / 2) ≤ uniformVal lo hi ∧ uniformVal lo hi < 1 / 2 := by
  unfold uniformVal
  have hnum0 : (0 : ℚ) ≤ (lo : ℚ) + (hi : ℚ) * 2 ^ 32 := by positivity
  have hnat : lo + hi * 2 ^ 32 < 2 ^ 64 := by
    have e32 : (2 : ℕ) ^ 32 = 4294967296 := by norm_num
    have e64 : (2 : ℕ) ^ 64 = 18446744073709551616 := by norm_num
    rw [e32] at hlo hhi ⊢
    rw [e64]
    omega
  have hnum1 : (lo : ℚ) + (hi : ℚ) * 2 ^ 32 < 2 ^ 64 := by exact_mod_cast hnat
  constructor
  · have : (0 : ℚ) ≤ ((lo : ℚ) + (hi : ℚ) * 2 ^ 32) / 2 ^ 64 := by positivity
    linarith
  · have : ((lo : ℚ) + (hi : ℚ) * 2 ^ 32) / 2 ^ 64 < 1 := by
      rw [div_lt_one (by positivity)]
      exact hnum1
    linarith

theorem randomVel_velBox (i : ℕ) : velBox (randomVel i) := by
  unfold velBox randomVel
  refine ⟨?_, ?_, ?_⟩ <;>
    exact uniformVal_mem _ _ (mtRaw_lt i _) (mtRaw_lt i _)

/-! ### Velocity initialisation in an arbitrary execution order -/

theorem velFoldAux_getD :
    ∀ (order : List ℕ) (acc : List Vec3) (k : ℕ),
      (order.foldl (fun a i => a.set i (randomVel i)) acc).getD k 0
        = if k ∈ order ∧ k < acc.length then randomVel k else acc.getD k 0 := by
  intro order
  induction order with
  | nil => intro acc k; simp
  | cons i order ih =>
      intro acc k
      rw [List.foldl_cons, ih]
      by_cases hk : k = i
      · subst hk
        by_cases hlen : k < acc.length
        · by_cases hmem : k ∈ order
          · simp [hmem, hlen, List.length_set]
          · rw [if_neg (by simp [hmem, List.length_set]),
              getD_set_self acc k _ 0 hlen, if_pos ⟨by simp, hlen⟩]
        · rw [List.set_eq_of_length_le (by omega)]
          rw [if_neg (by simp [hlen]), if_neg (by simp [hlen])]
      · rw [getD_set_ne acc _ 0 (fun h => hk h.symm)]
        simp only [List.length_set, List.mem_cons]
        by_cases hmem : k ∈ order
        · rw [if_congr (Iff.rfl) rfl rfl]
          by_cases hlen : k < acc.length
          · rw [if_pos ⟨hmem, hlen⟩, if_pos ⟨Or.inr hmem, hlen⟩]
          · rw [if_neg (by tauto), if_neg (by tauto)]
        · rw [if_neg (by tauto), if_neg (by tauto)]

theorem velFold_length (order : List ℕ) (n : ℕ) : (velFold order n).length = n := by
  unfold velFold
  have h : ∀ (l : List ℕ) (acc : List Vec3),
      (l.foldl (fun a i => a.set i (randomVel i)) acc).length = acc.length := by
    intro l
    induction l with
    | nil => intro acc; rfl
    | cons i l ih => intro acc; rw [List.foldl_cons, ih, List.length_set]
  rw [h, List.length_replicate]

theorem velFold_perm_eq (n : ℕ) (order : List ℕ) (h : order.Perm (List.range n)) :
    velFold order n = (List.range n).map randomVel := by
  apply List.ext_getElem (by rw [velFold_length, List.length_map, List.length_range])
  intro k h1 h2
  have hk : k < n := by simpa [velFold_length] using h1
  rw [← List.getD_eq_getElem _ 0 h1, ← List.getD_eq_getElem _ 0 h2]
  unfold velFold
  rw [velFoldAux_getD order (List.replicate n 0) k]
  rw [if_pos ⟨h.mem_iff.mpr (List.mem_range.mpr hk), by simpa using hk⟩]
  rw [getD_map_range n k 0 randomVel hk]

/-! ### Lattice helpers -/

theorem perSide_cube (n : ℕ) : n ≤ perSide n ^ 3 := by
  unfold perSide
  cases hf : (List.range (n + 2)).find? (fun k => n ≤ k ^ 3) with
  | none =>
      exfalso
      have hex : ∃ x ∈ List.range (n + 2), decide (n ≤ x ^ 3) = true := by
        refine ⟨n + 1, List.mem_range.mpr (by omega), ?_⟩
        simp only [decide_eq_true_eq]
        have h := Nat.le_self_pow (n := 3) (by norm_num) (n + 1)
        omega
      have hsome : ((List.range (n + 2)).find? (fun k => n ≤ k ^ 3)).isSome :=
        List.find?_isSome.mpr hex
      rw [hf] at hsome
      simp at hsome
  | some r =>
      have hp := List.find?_some hf
      simp only [decide_eq_true_eq] at hp
      simpa using hp

theorem perSide_pos (n : ℕ) (hn : 1 ≤ n) : 1 ≤ perSide n := by
  have h := perSide_cube n
  by_contra hcon
  have h0 : perSide n = 0 := by omega
  rw [h0] at h
  simp at h
  omega

theorem range'_find?_min (p : ℕ → Bool) :
    ∀ (len s r : ℕ), (List.range' s len).find? p = some r →
      ∀ k, p k = true → s ≤ k → r ≤ k := by
  intro len
  induction len with
  | zero => intro s r hr; simp at hr
  | succ m ih =>
      intro s r hr k hk hsk
      rw [show List.range' s (m + 1) = s :: List.range' (s + 1) m from rfl] at hr
      by_cases hps : p s = true
      · rw [List.find?_cons_of_pos _ hps] at hr
        have hrs : r = s := (Option.some_inj.mp hr).symm
        omega
      · rw [List.find?_cons_of_neg _ (by simp [hps])] at hr
        by_cases hks : k = s
        · exact absurd (hks ▸ hk) hps
        · exact ih (s + 1) r hr k hk (by omega)

theorem latticeSlot_inj (p i j : ℕ) (h : latticeSlot p i = latticeSlot p j) : i = j := by
  unfold latticeSlot at h
  rw [Prod.ext_iff, Prod.ext_iff] at h
  obtain ⟨h1, h2, h3⟩ := h
  dsimp only at h1 h2 h3
  have ei : i = p * (p * (i / (p * p)) + i / p % p) + i % p := by
    calc i = p * (i / p) + i % p := (Nat.div_add_mod i p).symm
    _ = p * (p * (i / p / p) + i / p % p) + i % p := by rw [Nat.div_add_mod (i / p) p]
    _ = p * (p * (i / (p * p)) + i / p % p) + i % p := by rw [Nat.div_div_eq_div_mul]
  have ej : j = p * (p * (j / (p * p)) + j / p % p) + j % p := by
    calc j = p * (j / p) + j % p := (Nat.div_add_mod j p).symm
    _ = p * (p * (j / p / p) + j / p % p) + j % p := by rw [Nat.div_add_mod (j / p) p]
    _ = p * (p * (j / (p * p)) + j / p % p) + j % p := by rw [Nat.div_div_eq_div_mul]
  rw [ei, ej, h1, h2, h3]

theorem perSide_min (n k : ℕ) (hk : n ≤ k ^ 3) : perSide n ≤ k := by
  unfold perSide
  cases hf : (List.range (n + 2)).find? (fun x => n ≤ x ^ 3) with
  | none => simp
  | some r =>
      simp only [Option.getD_some]
      rw [List.range_eq_range'] at hf
      exact range'_find?_min (fun x => decide (n ≤ x ^ 3)) (n + 2) 0 r hf k
        (by simpa using hk) (Nat.zero_le k)

theorem perSide_div_sq_lt (n i : ℕ) (hn : 1 ≤ n) (hi : i < n) :
    i / (perSide n * perSide n) < perSide n := by
  have hp := perSide_pos n hn
  have hc := perSide_cube n
  rw [Nat.div_lt_iff_lt_mul (by positivity)]
  calc i < n := hi
  _ ≤ perSide n ^ 3 := hc
  _ = perSide n * (perSide n * perSide n) := by ring

theorem grid_component_bound (L : ℚ) (p idx : ℕ) (hL : 0 < L) (hp : 1 ≤ p)
    (hidx : idx < p) :
    0 < L / ((p : ℚ) + 1) * (idx : ℚ) + 1 / 2 * (L / ((p : ℚ) + 1))
      ∧ L / ((p : ℚ) + 1) * (idx : ℚ) + 1 / 2 * (L / ((p : ℚ) + 1)) < L := by
  have hq1 : ((p : ℚ) + 1) ≠ 0 := by positivity
  have hs : 0 < L / ((p : ℚ) + 1) := div_pos hL (by positivity)
  have hsL : L / ((p : ℚ) + 1) * ((p : ℚ) + 1) = L := div_mul_cancel₀ L hq1
  have hidx1 : (idx : ℚ) + 1 ≤ (p : ℚ) := by
    have h := hidx
    exact_mod_cast h
  have hx0 : (0 : ℚ) ≤ (idx : ℚ) := Nat.cast_nonneg idx
  constructor
  · nlinarith [mul_nonneg hs.le hx0, hs]
  · nlinarith [mul_nonneg hs.le (by linarith : (0 : ℚ) ≤ (p : ℚ) - (idx : ℚ) - 1), hs, hsL]

theorem vec3_add_self_eq_zero {v : Vec3} (h : v + v = 0) : v = 0 := by
  obtain ⟨a, b, c⟩ := v
  have h1 : a + a = 0 := congrArg Prod.fst h
  have h2 : b + b = 0 := congrArg (fun x : Vec3 => x.2.1) h
  have h3 : c + c = 0 := congrArg (fun x : Vec3 => x.2.2) h
  have ha : a = 0 := by linarith
  have hb : b = 0 := by linarith
  have hc : c = 0 := by linarith
  subst ha hb hc
  rfl

/-- C3: for every squared separation `r2 ≥ rc²` a pair contributes exactly
zero to both forces and potential energy (hard cutoff, no smoothing); for
`r2 < rc²` the potential contribution is shifted by the constant
`V_LJ(rc²)`, which is exactly the value the plugin's `initialize` computes,
so the shifted potential is continuous — and zero — at the cutoff boundary
(stated over `ℝ` for the same defining expressions). -/
theorem c3_cutoff_hard_and_shift_continuous :
    (∀ shift r2 : ℚ, lj_cutoff2 ℚ ≤ r2 →
        lj_force_with_cutoff ℚ r2 = 0 ∧ lj_potential_with_cutoff ℚ shift r2 = 0)
    ∧ (∀ (shift L : ℚ) (pos : List Vec3) (i j : ℕ) (fs : List Vec3) (e : ℚ),
        i ≠ j → i < fs.length → lj_cutoff2 ℚ ≤ norm2 (pairDisp L pos i j) →
        ljPairStep shift L pos i (fs, e) j = (fs, e))
    ∧ ljShiftInit ℚ = lj_potential ℚ (lj_cutoff2 ℚ)
    ∧ (∀ r2 : ℚ, r2 < lj_cutoff2 ℚ →
        lj_potential_with_cutoff ℚ (ljShiftInit ℚ) r2
          = lj_potential ℚ r2 - lj_potential ℚ (lj_cutoff2 ℚ))
    ∧ lj_potential_with_cutoff ℝ (ljShiftInit ℝ) (lj_cutoff2 ℝ) = 0
    ∧ ContinuousAt (lj_potential_with_cutoff ℝ (ljShiftInit ℝ)) (lj_cutoff2 ℝ) := by
  have hzero : ∀ shift r2 : ℚ, lj_cutoff2 ℚ ≤ r2 →
      lj_force_with_cutoff ℚ r2 = 0 ∧ lj_potential_with_cutoff ℚ shift r2 = 0 := by
    intro shift r2 h
    unfold lj_force_with_cutoff lj_potential_with_cutoff
    rw [if_neg (not_lt.mpr h), if_neg (not_lt.mpr h)]
    exact ⟨rfl, rfl⟩
  refine ⟨hzero, ?_, rfl, ?_, ?_, ?_⟩
  · intro shift L pos i j fs e hij hi hcut
    rw [ljPairStep_hit shift L pos fs e hij]
    unfold pairForce pairPot
    rw [if_neg hij, if_neg hij, (hzero shift _ hcut).1, (hzero shift _ hcut).2]
    rw [zero_smul, add_zero, set_getD_self fs i 0 hi, mul_zero, add_zero]
  · intro r2 h
    unfold lj_potential_with_cutoff
    rw [if_pos h]
    rfl
  · unfold lj_potential_with_cutoff
    rw [if_neg (lt_irrefl _)]
  · have hc : lj_cutoff2 ℝ ≠ 0 := by norm_num [lj_cutoff2, lj_cutoff]
    have hQcont : Continuous (fun t : ℝ => 4 * ((t * t * t) * (t * t * t) - t * t * t)) := by
      continuity
    have hinv : ContinuousAt (fun x : ℝ => 1 / x) (lj_cutoff2 ℝ) :=
      ContinuousAt.div continuousAt_const continuousAt_id hc
    have hV : ContinuousAt (lj_potential ℝ) (lj_cutoff2 ℝ) := by
      have hfun : lj_potential ℝ
          = (fun t : ℝ => 4 * ((t * t * t) * (t * t * t) - t * t * t))
            ∘ (fun x : ℝ => 1 / x) := rfl
      rw [hfun]
      exact hQcont.continuousAt.comp hinv
    have hF : ContinuousAt
        (fun x : ℝ => lj_potential ℝ x - lj_potential ℝ (lj_cutoff2 ℝ)) (lj_cutoff2 ℝ) :=
      hV.sub continuousAt_const
    have habs : Filter.Tendsto
        (fun x : ℝ => |lj_potential ℝ x - lj_potential ℝ (lj_cutoff2 ℝ)|)
        (nhds (lj_cutoff2 ℝ)) (nhds 0) := by
      have ht : Filter.Tendsto
          (fun x : ℝ => lj_potential ℝ x - lj_potential ℝ (lj_cutoff2 ℝ))
          (nhds (lj_cutoff2 ℝ)) (nhds 0) := by
        simpa [sub_self] using hF.tendsto
      simpa using ht.abs
    have hbound : ∀ x : ℝ, ‖lj_potential_with_cutoff ℝ (ljShiftInit ℝ) x‖
        ≤ |lj_potential ℝ x - lj_potential ℝ (lj_cutoff2 ℝ)| := by
      intro x
      unfold lj_potential_with_cutoff
      by_cases hx : x < lj_cutoff2 ℝ
      · rw [if_pos hx, Real.norm_eq_abs]
        unfold ljShiftInit
        exact le_rfl
      · rw [if_neg hx]
        simp [abs_nonneg]
    unfold ContinuousAt
    have hval : lj_potential_with_cutoff ℝ (ljShiftInit ℝ) (lj_cutoff2 ℝ) = 0 := by
      unfold lj_potential_with_cutoff
      rw [if_neg (lt_irrefl _)]
    rw [hval]
    exact squeeze_zero_norm hbound habs

/-- C3 witness: the theorem instantiated at the concrete separations `r2 = 7`
(beyond the cutoff) and `r2 = 4` (inside the cutoff). -/
theorem c3_witness :
    lj_cutoff2 ℚ ≤ 7 ∧ lj_force_with_cutoff ℚ 7 = 0
      ∧ lj_potential_with_cutoff ℚ 3 7 = 0
      ∧ (4 : ℚ) < lj_cutoff2 ℚ
      ∧ lj_potential_with_cutoff ℚ (ljShiftInit ℚ) 4
          = lj_potential ℚ 4 - lj_potential ℚ (lj_cutoff2 ℚ) := by
  have h7 : lj_cutoff2 ℚ ≤ 7 := by norm_num [lj_cutoff2, lj_cutoff]
  have h4 : (4 : ℚ) < lj_cutoff2 ℚ := by norm_num [lj_cutoff2, lj_cutoff]
  exact ⟨h7, (c3_cutoff_hard_and_shift_continuous.1 3 7 h7).1,
    (c3_cutoff_hard_and_shift_continuous.1 3 7 h7).2, h4,
    c3_cutoff_hard_and_shift_continuous.2.2.2.1 4 h4⟩

/-- C4 (code bug): the claim says a cutoff radius exceeding `box_size/2` is
validated at setup and rejected before any step runs.  The code contains no
such check: `lj_cutoff = 2.5` is a global constant, and the `MDSimulation`
constructor accepts every `(box_size, nparticles)` unconditionally.  With
`box_size = 4` the cutoff `2.5 > 4/2` and construction still succeeds,
recording the inputs unchanged. -/
theorem c4_no_cutoff_validation :
    (mdInit 4 2).box_size = 4 ∧ (mdInit 4 2).nparticles = 2
    ∧ (mdInit 4 2).positions.length = 2
    ∧ (mdInit 4 2).velocities.length = 2
    ∧ (mdInit 4 2).forces.length = 2
    ∧ lj_cutoff ℚ > 4 / 2
    ∧ (∀ (L : ℚ) (n : ℕ), (mdInit L n).box_size = L ∧ (mdInit L n).nparticles = n) := by
  refine ⟨rfl, rfl, ?_, ?_, ?_, ?_, fun L n => ⟨rfl, rfl⟩⟩
  · simp [mdInit]
  · simp [mdInit]
  · simp [mdInit]
  · norm_num [lj_cutoff]

/-- C5: a pair at direct distance `d < L/2` along an axis and the same pair
placed `L - d` apart through the boundary produce the identical squared
separation `r2 = d²` under the kernel's minimum-image correction. -/
theorem c5_minimum_image_identical (L d a y z : ℚ) (hd0 : 0 ≤ d) (hd : d < L / 2) :
    norm2 (minImageDisp L (a + d, y, z) (a, y, z)) = d * d
    ∧ norm2 (minImageDisp L (a, y, z) (a + (L - d), y, z)) = d * d := by
  have hL : 0 < L := by linarith
  constructor
  · show norm2 (minImage L (a + d - a), minImage L (y - y), minImage L (z - z)) = d * d
    rw [show a + d - a = d by ring, show y - y = (0 : ℚ) by ring,
      show z - z = (0 : ℚ) by ring]
    simp only [minImage_cases, norm2]
    split_ifs <;> first | ring1 | linarith
  · show norm2 (minImage L (a - (a + (L - d))), minImage L (y - y), minImage L (z - z))
        = d * d
    rw [show a - (a + (L - d)) = d - L by ring, show y - y = (0 : ℚ) by ring,
      show z - z = (0 : ℚ) by ring]
    simp only [minImage_cases, norm2]
    split_ifs <;> first | ring1 | linarith

/-- C5 witness: the theorem at `L = 10`, `d = 2`, base point `a = 1`. -/
theorem c5_witness :
    (0 : ℚ) ≤ 2 ∧ (2 : ℚ) < 10 / 2
    ∧ norm2 (minImageDisp 10 ((1 : ℚ) + 2, 0, 0) (1, 0, 0)) = 2 * 2
    ∧ norm2 (minImageDisp 10 ((1 : ℚ), 0, 0) (1 + (10 - 2), 0, 0)) = 2 * 2 := by
  have h1 : (0 : ℚ) ≤ 2 := by norm_num
  have h2 : (2 : ℚ) < 10 / 2 := by norm_num
  exact ⟨h1, h2, (c5_minimum_image_identical 10 2 1 0 0 h1 h2).1,
    (c5_minimum_image_identical 10 2 1 0 0 h1 h2).2⟩

/-- C6: after the periodic wrap of a step, every position component lies in
`[0, box_size)` provided each component of the per-step displacement
`velocity * dt` is at most one box length in magnitude; moreover a component
exactly at `L` wraps to `0` and a component at `-ε` wraps to `L - ε`. -/
theorem c6_wrap_invariant (dt : ℚ) (s : MDState) (hL : 0 < s.box_size)
    (hpos : ∀ i, i < s.nparticles → inBox s.box_size (s.positions.getD i 0))
    (hvel : ∀ i, i < s.nparticles →
      |(s.velocities.getD i 0).1 * dt| ≤ s.box_size
        ∧ |(s.velocities.getD i 0).2.1 * dt| ≤ s.box_size
        ∧ |(s.velocities.getD i 0).2.2 * dt| ≤ s.box_size) :
    (∀ i, i < s.nparticles → inBox s.box_size ((stepCode dt s).positions.getD i 0))
    ∧ (∀ L : ℚ, 0 < L → wrapCoord L L = 0)
    ∧ (∀ L eps : ℚ, 0 < eps → eps ≤ L → wrapCoord L (-eps) = L - eps) := by
  refine ⟨?_, wrapCoord_at_L, wrapCoord_neg_eps⟩
  intro i hi
  have hstep : (stepCode dt s).positions
      = (List.range s.nparticles).map
          (fun i => stepPos s.box_size dt (s.positions.getD i 0) (s.velocities.getD i 0)) :=
    rfl
  rw [hstep, getD_map_range _ _ _ _ hi]
  obtain ⟨hp1, hp2, hp3⟩ := hpos i hi
  obtain ⟨hv1, hv2, hv3⟩ := hvel i hi
  rw [abs_le] at hv1 hv2 hv3
  unfold stepPos inBox
  refine ⟨?_, ?_, ?_⟩
  · exact wrapCoord_mem _ _ hL (by linarith [hv1.1, hp1.1]) (by linarith [hv1.2, hp1.2])
  · exact wrapCoord_mem _ _ hL (by linarith [hv2.1, hp2.1]) (by linarith [hv2.2, hp2.2])
  · exact wrapCoord_mem _ _ hL (by linarith [hv3.1, hp3.1]) (by linarith [hv3.2, hp3.2])

/-- C6 witness: the theorem at a one-particle state in a box of size `2`
with displacement `1/4` per step, plus the two boundary examples. -/
theorem c6_witness :
    (0 : ℚ) < 2
    ∧ inBox 2 ((stepCode 1 (MDState.mk 2 0 0 1 [(1 / 2, 0, 0)] [(1 / 4, 0, 0)]
        [(0, 0, 0)])).positions.getD 0 0)
    ∧ wrapCoord 3 3 = 0
    ∧ wrapCoord 3 (-1) = 3 - 1 := by
  have hc := c6_wrap_invariant 1 (MDState.mk 2 0 0 1 [(1 / 2, 0, 0)] [(1 / 4, 0, 0)]
      [(0, 0, 0)])
    (by norm_num)
    (by
      intro i hi
      have h0 : i = 0 := by
        simpa using Nat.lt_one_iff.mp hi
      subst h0
      norm_num [inBox, List.getD_cons_zero])
    (by
      intro i hi
      have h0 : i = 0 := by
        simpa using Nat.lt_one_iff.mp hi
      subst h0
      norm_num [List.getD_cons_zero, abs_le])
  exact ⟨by norm_num, hc.1 0 (by norm_num), hc.2.1 3 (by norm_num),
    hc.2.2 3 1 (by norm_num) (by norm_num)⟩

/-- C7 (spec-modelled step): within a step, positions are advanced with the
previous step's velocities; kinetic energy is the sum of `0.5·v²` over all
components of the velocities before this step's velocity update; forces and
potential energy are exactly `evaluate_lj_forces` evaluated at the already
updated positions; and only afterwards is each velocity advanced by
`forces[i] * dt`. -/
theorem c7_integration_order (dt : ℚ) (s : MDState) :
    (∀ i, i < s.nparticles →
      (stepModel dt s).positions.getD i 0
        = stepPos s.box_size dt (s.positions.getD i 0) (s.velocities.getD i 0))
    ∧ (stepModel dt s).kinetic_energy
        = ∑ i ∈ Finset.range s.nparticles,
            (1 / 2 * ((s.velocities.getD i 0).1 * (s.velocities.getD i 0).1)
              + 1 / 2 * ((s.velocities.getD i 0).2.1 * (s.velocities.getD i 0).2.1)
              + 1 / 2 * ((s.velocities.getD i 0).2.2 * (s.velocities.getD i 0).2.2))
    ∧ (stepModel dt s).forces
        = (evaluate_lj_forces (ljShiftInit ℚ) s.nparticles s.box_size
            (stepModel dt s).positions (List.replicate s.nparticles 0, 0)).1
    ∧ (stepModel dt s).potential_energy
        = (evaluate_lj_forces (ljShiftInit ℚ) s.nparticles s.box_size
            (stepModel dt s).positions (List.replicate s.nparticles 0, 0)).2
    ∧ (∀ i, i < s.nparticles →
      (stepModel dt s).velocities.getD i 0
        = s.velocities.getD i 0 + dt • (stepModel dt s).forces.getD i 0) := by
  refine ⟨?_, ?_, rfl, rfl, ?_⟩
  · intro i hi
    exact getD_map_range _ _ _ _ hi
  · rw [show (stepModel dt s).kinetic_energy = keSum s.velocities s.nparticles from rfl,
      keSum_eq]
  · intro i hi
    exact getD_map_range _ _ _ _ hi

/-- C7 witness: the theorem at `dt = 1` and a concrete one-particle state. -/
theorem c7_witness :
    (0 : ℕ) < (MDState.mk 2 0 0 1 [((1 : ℚ) / 2, 0, 0)] [((1 : ℚ) / 4, 0, 0)]
        [(0, 0, 0)]).nparticles
    ∧ (stepModel 1 (MDState.mk 2 0 0 1 [((1 : ℚ) / 2, 0, 0)] [((1 : ℚ) / 4, 0, 0)]
        [(0, 0, 0)])).positions.getD 0 0
      = stepPos 2 1 ((1 : ℚ) / 2, 0, 0) ((1 : ℚ) / 4, 0, 0) := by
  refine ⟨by norm_num, ?_⟩
  exact (c7_integration_order 1 (MDState.mk 2 0 0 1 [((1 : ℚ) / 2, 0, 0)]
    [((1 : ℚ) / 4, 0, 0)] [(0, 0, 0)])).1 0 (by norm_num)

/-- C1 (code bug): the claim says each step invokes the plugin's
`evaluate_forces`, which fills all forces and the total potential energy for
the new positions.  In the source the call site (main.cpp line 101) is only
the comment "Call the plugin evaluate_forces function here", and the plugin
entry point `evaluate_forces` itself (plugin.cpp lines 133-145) has its
dispatch to `evaluate_lj_forces` commented out.  Consequently the step as
coded always reports potential energy `0` and leaves all forces zeroed, even
for a configuration (two particles `1.5` apart in a box of `20`) for which
`evaluate_lj_forces` yields a nonzero potential energy. -/
theorem c1_plugin_call_missing :
    (∀ (dt : ℚ) (s : MDState),
      (stepCode dt s).potential_energy = 0
        ∧ (stepCode dt s).forces = List.replicate s.nparticles 0
        ∧ (runCode 1 dt s).potential_energy = 0)
    ∧ (evaluate_lj_forces (ljShiftInit ℚ) 2 20
        [((37 : ℚ) / 4, 10, 10), ((43 : ℚ) / 4, 10, 10)]
        (List.replicate 2 0, 0)).2 ≠ 0 := by
  constructor
  · intro dt s
    exact ⟨rfl, rfl, rfl⟩
  · rw [evaluate_lj_forces_pe]
    simp only [Finset.sum_range_succ, Finset.sum_range_zero]
    norm_num [pairPot, pairDisp, minImageDisp, minImage, norm2,
      lj_potential_with_cutoff, lj_potential, lj_cutoff2, lj_cutoff, ljShiftInit,
      List.getD_cons_zero, List.getD_cons_succ]

/-- C2: for an ordered pair `(i, j)`, `i ≠ j`, inside the cutoff, the kernel
adds `f(r2)·displacement` to `forces[i]` with
`f(r2) = 24·r2⁻¹·(2·r2⁻⁶ − r2⁻³)` and accumulates
`0.5·(V_LJ(r2) − V_LJ(rc²))` into the potential energy, where
`V_LJ(r2) = 4·(r2⁻³·r2⁻³ − r2⁻³) = 4·(r⁻¹² − r⁻⁶)` (`r² = r2`); consequently
a 2-particle system's total potential energy is a single evaluation of
`V_LJ(r2) − V_LJ(rc²)`, not doubled. -/
theorem c2_pair_kernel :
    (∀ (L : ℚ) (pos : List Vec3) (i j : ℕ) (fs : List Vec3) (e : ℚ),
      i ≠ j → i < fs.length → norm2 (pairDisp L pos i j) < lj_cutoff2 ℚ →
      ljPairStep (ljShiftInit ℚ) L pos i (fs, e) j
        = (fs.set i (fs.getD i 0
            + (24 * (norm2 (pairDisp L pos i j))⁻¹
                * (2 * (norm2 (pairDisp L pos i j))⁻¹ ^ 6
                  - (norm2 (pairDisp L pos i j))⁻¹ ^ 3)) • pairDisp L pos i j),
           e + 1 / 2 * (lj_potential ℚ (norm2 (pairDisp L pos i j))
             - lj_potential ℚ (lj_cutoff2 ℚ))))
    ∧ (∀ r2 : ℚ, lj_potential ℚ r2 = 4 * (r2⁻¹ ^ 3 * r2⁻¹ ^ 3 - r2⁻¹ ^ 3))
    ∧ (∀ (L : ℚ) (p0 p1 : Vec3), 0 ≤ L →
        norm2 (minImageDisp L p0 p1) < lj_cutoff2 ℚ →
        (evaluate_lj_forces (ljShiftInit ℚ) 2 L [p0, p1] (List.replicate 2 0, 0)).2
          = lj_potential ℚ (norm2 (minImageDisp L p0 p1))
            - lj_potential ℚ (lj_cutoff2 ℚ)) := by
  refine ⟨?_, ?_, ?_⟩
  · intro L pos i j fs e hij hi hcut
    rw [ljPairStep_hit _ _ _ _ _ hij]
    have hf : pairForce L pos i j
        = (24 * (norm2 (pairDisp L pos i j))⁻¹
            * (2 * (norm2 (pairDisp L pos i j))⁻¹ ^ 6
              - (norm2 (pairDisp L pos i j))⁻¹ ^ 3)) • pairDisp L pos i j := by
      unfold pairForce
      rw [if_neg hij]
      congr 1
      unfold lj_force_with_cutoff
      rw [if_pos hcut]
      unfold lj_force
      dsimp only
      rw [one_div]
      ring
    have hp : pairPot (ljShiftInit ℚ) L pos i j
        = 1 / 2 * (lj_potential ℚ (norm2 (pairDisp L pos i j))
            - lj_potential ℚ (lj_cutoff2 ℚ)) := by
      unfold pairPot
      rw [if_neg hij]
      unfold lj_potential_with_cutoff
      rw [if_pos hcut]
      rw [show ljShiftInit ℚ = lj_potential ℚ (lj_cutoff2 ℚ) from rfl]
    rw [hf, hp]
  · intro r2
    unfold lj_potential
    dsimp only
    rw [one_div]
    ring
  · intro L p0 p1 hL hcut
    rw [evaluate_lj_forces_pe]
    simp only [Finset.sum_range_succ, Finset.sum_range_zero]
    have h00 : pairPot (ljShiftInit ℚ) L [p0, p1] 0 0 = 0 := by simp [pairPot]
    have h11 : pairPot (ljShiftInit ℚ) L [p0, p1] 1 1 = 0 := by simp [pairPot]
    have h01 : pairPot (ljShiftInit ℚ) L [p0, p1] 0 1
        = 1 / 2 * (lj_potential ℚ (norm2 (minImageDisp L p0 p1))
            - lj_potential ℚ (lj_cutoff2 ℚ)) := by
      unfold pairPot pairDisp
      rw [if_neg (by norm_num)]
      simp only [List.getD_cons_zero, List.getD_cons_succ]
      unfold lj_potential_with_cutoff
      rw [if_pos hcut]
      rw [show ljShiftInit ℚ = lj_potential ℚ (lj_cutoff2 ℚ) from rfl]
    have h10 : pairPot (ljShiftInit ℚ) L [p0, p1] 1 0
        = pairPot (ljShiftInit ℚ) L [p0, p1] 0 1 :=
      pairPot_symm (ljShiftInit ℚ) L [p0, p1] 0 1 hL
    rw [h00, h11, h01, h10, h01]
    ring

/-- C2 witness: the two-particle total at `L = 20` and a separation of `3/2`
along the `x` axis. -/
theorem c2_witness :
    (0 : ℚ) ≤ 20
    ∧ norm2 (minImageDisp 20 ((0 : ℚ), 0, 0) ((3 / 2 : ℚ), 0, 0)) < lj_cutoff2 ℚ
    ∧ (evaluate_lj_forces (ljShiftInit ℚ) 2 20
        [((0 : ℚ), 0, 0), ((3 / 2 : ℚ), 0, 0)] (List.replicate 2 0, 0)).2
      = lj_potential ℚ (norm2 (minImageDisp 20 ((0 : ℚ), 0, 0) ((3 / 2 : ℚ), 0, 0)))
        - lj_potential ℚ (lj_cutoff2 ℚ) := by
  have h1 : (0 : ℚ) ≤ 20 := by norm_num
  have h2 : norm2 (minImageDisp 20 ((0 : ℚ), 0, 0) ((3 / 2 : ℚ), 0, 0)) < lj_cutoff2 ℚ := by
    norm_num [minImageDisp, minImage, norm2, lj_cutoff2, lj_cutoff]
  exact ⟨h1, h2, c2_pair_kernel.2.2 20 _ _ h1 h2⟩

/-- C8: construction places the first `n` particles on a simple-cubic lattice
with `ceil(n^(1/3))` particles per axis (the least `k` with `n ≤ k³`, which
`perSide` computes), spacing `L/(per_side+1)`, offset by half a spacing, in
row-major index order (`x` fastest); every generated position lies strictly
inside `(0, L)³` and no two particles occupy the same lattice slot. -/
theorem c8_lattice_placement (L : ℚ) (n : ℕ) (hn : 1 ≤ n) (hL : 0 < L) :
    (∀ i, i < n → (mdInit L n).positions.getD i 0 = gridPos L n i)
    ∧ (∀ i, i < n → inBoxStrict L (gridPos L n i))
    ∧ (∀ i j, i < n → j < n → i ≠ j →
        latticeSlot (perSide n) i ≠ latticeSlot (perSide n) j)
    ∧ n ≤ perSide n ^ 3
    ∧ (∀ k, n ≤ k ^ 3 → perSide n ≤ k) := by
  refine ⟨?_, ?_, ?_, perSide_cube n, perSide_min n⟩
  · intro i hi
    exact getD_map_range _ _ _ _ hi
  · intro i hi
    have hp := perSide_pos n hn
    unfold gridPos inBoxStrict
    dsimp only
    exact ⟨grid_component_bound L (perSide n) (i % perSide n) hL hp
        (Nat.mod_lt i (by omega)),
      grid_component_bound L (perSide n) (i / perSide n % perSide n) hL hp
        (Nat.mod_lt _ (by omega)),
      grid_component_bound L (perSide n) (i / (perSide n * perSide n)) hL hp
        (perSide_div_sq_lt n i hn hi)⟩
  · intro i j hi hj hij h
    exact hij (latticeSlot_inj (perSide n) i j h)

/-- C8 witness: the theorem at `n = 2`, `L = 20`. -/
theorem c8_witness :
    (1 : ℕ) ≤ 2 ∧ (0 : ℚ) < 20
    ∧ inBoxStrict 20 (gridPos 20 2 0)
    ∧ latticeSlot (perSide 2) 0 ≠ latticeSlot (perSide 2) 1
    ∧ 2 ≤ perSide 2 ^ 3 := by
  have h1 : (1 : ℕ) ≤ 2 := by norm_num
  have h2 : (0 : ℚ) < 20 := by norm_num
  exact ⟨h1, h2, (c8_lattice_placement 20 2 h1 h2).2.1 0 (by norm_num),
    (c8_lattice_placement 20 2 h1 h2).2.2.1 0 1 (by norm_num) (by norm_num) (by norm_num),
    (c8_lattice_placement 20 2 h1 h2).2.2.2.1⟩

/-- C9: each particle's velocity is a function of its own index alone (the
generator is seeded with the particle index), every component lies in
`[-1/2, 1/2)`, replaying the per-particle initialisation in any execution
order produces the same velocity array, and the array does not depend on the
box size — so two runs with the same `(L, n)` produce identical arrays. -/
theorem c9_velocity_reproducibility (L L2 : ℚ) (n : ℕ) (order : List ℕ)
    (h : order.Perm (List.range n)) :
    velFold order n = (mdInit L n).velocities
    ∧ (mdInit L n).velocities = (mdInit L2 n).velocities
    ∧ (∀ i, i < n → (mdInit L n).velocities.getD i 0 = randomVel i)
    ∧ (∀ i : ℕ, velBox (randomVel i)) := by
  refine ⟨?_, rfl, ?_, randomVel_velBox⟩
  · rw [velFold_perm_eq n order h]
    rfl
  · intro i hi
    exact getD_map_range _ _ _ _ hi

/-- C9 witness: the theorem at `n = 2` with the reversed execution order. -/
theorem c9_witness :
    ([1, 0] : List ℕ).Perm (List.range 2)
    ∧ velFold [1, 0] 2 = (mdInit 20 2).velocities
    ∧ (mdInit 20 2).velocities = (mdInit 7 2).velocities := by
  have hp : ([1, 0] : List ℕ).Perm (List.range 2) := by decide
  exact ⟨hp, (c9_velocity_reproducibility 20 7 2 [1, 0] hp).1,
    (c9_velocity_reproducibility 20 7 2 [1, 0] hp).2.1⟩

/-- C10: for a nonnegative box size and any positions in which distinct
particles are separated (nonzero minimum-image `r2`), the minimum-image
displacement of `(j, i)` is the exact negation of that of `(i, j)`, both
orders see the same `r2`, and the component-wise sum of all forces written by
`evaluate_lj_forces` into zeroed force vectors is the zero vector. -/
theorem c10_forces_sum_zero (n : ℕ) (L : ℚ) (pos : List Vec3) (hL : 0 ≤ L)
    (hsep : ∀ i j, i < n → j < n → i ≠ j → norm2 (pairDisp L pos i j) ≠ 0) :
    (∀ p q : Vec3, minImageDisp L q p = -minImageDisp L p q)
    ∧ (∀ i j : ℕ, norm2 (pairDisp L pos j i) = norm2 (pairDisp L pos i j))
    ∧ (evaluate_lj_forces (ljShiftInit ℚ) n L pos (List.replicate n 0, 0)).1.sum
        = 0 := by
  refine ⟨fun p q => minImageDisp_antisymm L p q hL, ?_, ?_⟩
  · intro i j
    rw [pairDisp_antisymm L pos i j hL, norm2_neg]
  · have hlen : (evaluate_lj_forces (ljShiftInit ℚ) n L pos
        (List.replicate n 0, 0)).1.length = n := by
      rw [evaluate_lj_forces_length]
      exact List.length_replicate n 0
    have hF : (evaluate_lj_forces (ljShiftInit ℚ) n L pos (List.replicate n 0, 0)).1
        = (List.range n).map (fun k => ∑ j ∈ Finset.range n, pairForce L pos k j) := by
      apply List.ext_getElem (by simp [hlen])
      intro k h1 h2
      have hk : k < n := by rwa [hlen] at h1
      rw [← List.getD_eq_getElem _ 0 h1, ← List.getD_eq_getElem _ 0 h2]
      rw [evaluate_lj_forces_force (ljShiftInit ℚ) L pos n k hk,
        getD_map_range _ _ _ _ hk]
    rw [hF, sum_map_range]
    have hanti : ∀ k j : ℕ, pairForce L pos j k = -pairForce L pos k j :=
      fun k j => pairForce_antisymm L pos k j hL
    have hswap : (∑ k ∈ Finset.range n, ∑ j ∈ Finset.range n, pairForce L pos k j)
        = ∑ j ∈ Finset.range n, ∑ k ∈ Finset.range n, pairForce L pos k j :=
      Finset.sum_comm
    have hneg : (∑ k ∈ Finset.range n, ∑ j ∈ Finset.range n, pairForce L pos k j)
        = -(∑ k ∈ Finset.range n, ∑ j ∈ Finset.range n, pairForce L pos k j) := by
      nth_rewrite 1 [hswap]
      rw [← Finset.sum_neg_distrib]
      apply Finset.sum_congr rfl
      intro j _
      rw [← Finset.sum_neg_distrib]
      apply Finset.sum_congr rfl
      intro k _
      exact hanti j k
    apply vec3_add_self_eq_zero
    nth_rewrite 2 [hneg]
    rw [add_neg_cancel]

/-- C10 witness: the theorem at two particles `2` apart in a box of `20`. -/
theorem c10_witness :
    (0 : ℚ) ≤ 20
    ∧ (∀ i j, i < 2 → j < 2 → i ≠ j →
        norm2 (pairDisp 20 [((0 : ℚ), 0, 0), ((2 : ℚ), 0, 0)] i j) ≠ 0)
    ∧ (evaluate_lj_forces (ljShiftInit ℚ) 2 20 [((0 : ℚ), 0, 0), ((2 : ℚ), 0, 0)]
        (List.replicate 2 0, 0)).1.sum = 0 := by
  have h1 : (0 : ℚ) ≤ 20 := by norm_num
  have h2 : ∀ i j, i < 2 → j < 2 → i ≠ j →
      norm2 (pairDisp 20 [((0 : ℚ), 0, 0), ((2 : ℚ), 0, 0)] i j) ≠ 0 := by
    intro i j hi hj hij
    interval_cases i <;> interval_cases j <;>
      first
        | exact absurd rfl hij
        | norm_num [pairDisp, minImageDisp, minImage, norm2, List.getD_cons_zero,
            List.getD_cons_succ]
  exact ⟨h1, h2, (c10_forces_sum_zero 2 20 _ h1 h2).2.2⟩
